import Mathlib

/-
Verification of the image-descent driver (src/image_descent/image_descent.py)
against its natural-language specification.

Shallow embedding notes.
Scalars (pixel intensities, coordinates, losses) are modelled as rationals;
the claims under study are structural (accumulation, history bookkeeping,
caching, coordinate conventions) and do not depend on floating-point rounding.
The field type F stands for a torch tensor holding an image or one
gradient-axis field; the pluggable functions of the constructor
(interp_fn, outofbounds_fn, grad_fn, the per-step pipelines) are carried
abstractly in a Config record, exactly as the Python object stores them.
Tensor coordinates are lists of rationals; dtype casts (.to(dtype)) are the
identity in this model.
-/

namespace ImageDescent

/-- A coordinate vector, one rational per axis. -/
abbrev Coords := List ℚ

/-- The pluggable configuration the constructor stores on the module:
scale, interp_fn, outofbounds_fn, grad_fn, the composed per-step image
pipeline (None when img_step was not configured, mirroring lines 118-119)
and the composed per-step gradient pipeline (line 120). -/
structure Config (F : Type) where
  scale : ℚ
  interp : F → Coords → ℚ
  outofbounds : Coords → List ℚ → List ℚ
  grad_fn : F → List F
  img_step : Option (F → F)
  grad_step : List F → List F

/-- The mutable state of an ImageDescent module: the cached base image,
the cached gradient fields (one per axis, already reversed as on line 113),
the trainable coords parameter, its gradient accumulator (coords.grad,
None until first written), and the two history lists. -/
structure State (F : Type) where
  image : F
  gradients : List F
  coords : Coords
  coordsGrad : Option (List ℚ)
  coordsHistory : List Coords
  lossHistory : List ℚ

variable {F : Type}

/-- Embedding of ImageDescent._image_gradient_fn_step (lines 131-141):
when a per-step image pipeline is configured, apply it and recompute the
gradient fields from the transformed image (reversing the grad_fn output
as the source does); otherwise reuse the cached image and gradients.
Either way the per-step gradient pipeline runs on the result. -/
def image_gradient_fn_step (cfg : Config F) (s : State F) : F × List F :=
  let p :=
    match cfg.img_step with
    | some t =>
        let image := t s.image
        (image, (cfg.grad_fn image).reverse)
    | none => (s.image, s.gradients)
  (p.1, cfg.grad_step p.2)

/-- Embedding of ImageDescent.forward (lines 143-167): fetch the per-step
image and gradients, snapshot the coords (detach/cpu/clone is the identity
on values), append the snapshot to coords_history, interpolate each
gradient-axis field at the snapshot, apply the out-of-bounds policy,
accumulate the scaled gradient into coords.grad (initializing when None),
interpolate the image at the snapshot for the loss, append it to
loss_history and return it. -/
def forward (cfg : Config F) (s : State F) : State F × ℚ :=
  let ig := image_gradient_fn_step cfg s
  let coords_detached := s.coords
  let grad := ig.2.map (fun g => cfg.interp g coords_detached)
  let grad2 := cfg.outofbounds coords_detached grad
  let scaled := grad2.map (fun x => x * cfg.scale)
  let newGrad :=
    match s.coordsGrad with
    | none => scaled
    | some g0 => List.zipWith (fun a b => a + b) g0 scaled
  let loss := cfg.interp ig.1 coords_detached
  ({ s with
      coordsGrad := some newGrad
      coordsHistory := s.coordsHistory ++ [coords_detached]
      lossHistory := s.lossHistory ++ [loss] }, loss)

/-- Embedding of ImageDescent.forward_nograd (lines 169-175): fetch the
per-step image, snapshot the coords, append the snapshot and the
interpolated loss to the histories and return the loss; the gradient
accumulator is never touched. -/
def forward_nograd (cfg : Config F) (s : State F) : State F × ℚ :=
  let ig := image_gradient_fn_step cfg s
  let coords_detached := s.coords
  let loss := cfg.interp ig.1 coords_detached
  ({ s with
      coordsHistory := s.coordsHistory ++ [coords_detached]
      lossHistory := s.lossHistory ++ [loss] }, loss)

/-- ImageDescent.step (line 177) is forward. -/
def step (cfg : Config F) (s : State F) : State F × ℚ := forward cfg s

/-- ImageDescent.step_nograd (line 178) is forward_nograd. -/
def step_nograd (cfg : Config F) (s : State F) : State F × ℚ :=
  forward_nograd cfg s

/-- The adjusted per-axis gradient vector built by forward at lines
152-157: interpolate each gradient-axis field at the snapshot of the
coords, then apply the out-of-bounds policy with the snapshot as context. -/
def adjusted_grad (cfg : Config F) (s : State F) : List ℚ :=
  cfg.outofbounds s.coords
    ((image_gradient_fn_step cfg s).2.map (fun g => cfg.interp g s.coords))

/-- Run a sequence of steps: true runs step (forward), false runs
step_nograd (forward_nograd), in list order. -/
def runSteps (cfg : Config F) : List Bool → State F → State F
  | [], s => s
  | b :: bs, s =>
      runSteps cfg bs (if b then (step cfg s).1 else (step_nograd cfg s).1)

/-- Overwrite the coords parameter, as the attached external optimizer
does between steps. -/
def setCoords (s : State F) (c : Coords) : State F := { s with coords := c }

/-- Run forward once per listed coordinate vector, the optimizer setting
the coords to the listed value before each step. -/
def runForwardAt (cfg : Config F) : List Coords → State F → State F
  | [], s => s
  | c :: cs, s => runForwardAt cfg cs (forward cfg (setCoords s c)).1

/-- Modelled from the spec: python_tools.Compose is imported by the
driver but its module is not part of the observed source. Per the spec
it composes zero or more unary functions into a single callable applied
in the order supplied, composing zero functions yields the identity
function, and None is tolerated as a no-op. -/
def Compose {α : Type} (fs : Option (List (α → α))) : α → α :=
  fun x => (fs.getD []).foldl (fun a f => f a) x

/-- The four optional hook arguments of the constructor (lines 35-38);
none models passing None, which is also each argument's default. -/
structure Hooks (F : Type) where
  img_init : Option (List (F → F))
  img_step : Option (List (F → F))
  grad_init : Option (List (List F → List F))
  grad_step : Option (List (List F → List F))

/-- The non-hook constructor inputs the hook wiring depends on: the
loaded and smoothed base image, the processed initial coords, and the
stored pluggable functions. -/
structure InitArgs (F : Type) where
  base_image : F
  coords0 : Coords
  scale : ℚ
  interp : F → Coords → ℚ
  outofbounds : Coords → List ℚ → List ℚ
  grad_fn : F → List F

/-- Embedding of the constructor's hook wiring (lines 109-124):
img_init is applied to the image (line 110), the gradients are computed
and reversed (line 113) then grad_init is applied (line 115); img_step
is composed only when not None, else stored as None (lines 118-119);
grad_step is always composed, even from None (line 120); coords.grad
starts unset and the histories start empty (lines 122-124). -/
def mkDescent (a : InitArgs F) (h : Hooks F) : Config F × State F :=
  let image := Compose h.img_init a.base_image
  let gradients := Compose h.grad_init ((a.grad_fn image).reverse)
  ({ scale := a.scale
     interp := a.interp
     outofbounds := a.outofbounds
     grad_fn := a.grad_fn
     img_step :=
       match h.img_step with
       | none => none
       | some fs => some (Compose (some fs))
     grad_step := Compose h.grad_step },
   { image := image
     gradients := gradients
     coords := a.coords0
     coordsGrad := none
     coordsHistory := []
     lossHistory := [] })

/-- A concrete driver instantiation over rational images: the image is
one cell of value 5, one gradient axis equal to the image, interpolation
reads the cell, the out-of-bounds policy is the identity and scale is 1. -/
def exampleArgs : InitArgs ℚ :=
  { base_image := 5
    coords0 := [0]
    scale := 1
    interp := fun f _ => f
    outofbounds := fun _ g => g
    grad_fn := fun x => [x] }

/-- Hooks passing the empty sequence for img_step and a grad_init that
shifts every gradient cell by one. -/
def exampleHooksEmpty : Hooks ℚ :=
  { img_init := none
    img_step := some []
    grad_init := some [fun gs => gs.map (fun x => x + 1)]
    grad_step := none }

/-- The same hooks with img_step left unconfigured (None). -/
def exampleHooksNone : Hooks ℚ :=
  { exampleHooksEmpty with img_step := none }

/-- The pixel-to-normalized conversion applied in the constructor
(line 104): ((i / s) * 2) - 1 for pixel coordinate i on an axis of size s. -/
def pix2norm (i s : ℚ) : ℚ := ((i / s) * 2) - 1

/-- Embedding of ImageDescent.rel2abs for one axis (lines 213-214):
((c + 1) / 2) * s for normalized coordinate c on an axis of size s. -/
def rel2abs (c s : ℚ) : ℚ := ((c + 1) / 2) * s

/-- A Python scalar as it appears in the coords argument: either an int
or a float (modelled as an exact rational). -/
inductive PyNum where
  | int : ℤ → PyNum
  | float : ℚ → PyNum
deriving DecidableEq

/-- The numeric value of a Python scalar. -/
def PyNum.val : PyNum → ℚ
  | .int n => (n : ℚ)
  | .float q => q

/-- isinstance(x, int) for a Python scalar. -/
def PyNum.isInt : PyNum → Bool
  | .int _ => true
  | .float _ => false

/-- Embedding of the coords processing in the constructor (line 104):
if the FIRST element is an int, every element is converted with pix2norm
(zipped against the image shape); otherwise the sequence is used as is.
An empty sequence would raise in Python; it is mapped to itself here and
never used by the theorems. -/
def process_coords (coords : List PyNum) (shape : List ℚ) : List ℚ :=
  match coords with
  | [] => []
  | c :: _ =>
      if c.isInt then
        (coords.zip shape).map (fun p => pix2norm p.1.val p.2)
      else coords.map PyNum.val

/-- The out-of-bounds policies named in the source. -/
inductive OOBPolicy where
  | hard
  | soft
deriving DecidableEq

/-- The actual default of the outofbounds_fn argument (line 33):
out_of_bounds_hard. -/
def outofbounds_fn_default : OOBPolicy := .hard

/-- The default the constructor docstring documents for outofbounds_fn
(lines 70-71): out_of_bounds_soft. -/
def outofbounds_fn_documented_default : OOBPolicy := .soft

end ImageDescent

namespace ImageDescent

/-- Both histories grow by exactly one entry at each step, whichever
variant runs. -/
theorem runSteps_histories (cfg : Config F) (ks : List Bool) (s : State F) :
    ∃ tc tl, (runSteps cfg ks s).coordsHistory = s.coordsHistory ++ tc ∧
      (runSteps cfg ks s).lossHistory = s.lossHistory ++ tl ∧
      tc.length = ks.length ∧ tl.length = ks.length := by
  induction ks generalizing s with
  | nil => exact ⟨[], [], by simp [runSteps], by simp [runSteps], rfl, rfl⟩
  | cons b bs ih =>
    set s1 := if b then (step cfg s).1 else (step_nograd cfg s).1 with hs1
    have hc : s1.coordsHistory = s.coordsHistory ++ [s.coords] := by
      cases b <;> simp [hs1, step, step_nograd, forward, forward_nograd]
    have hl : ∃ l, s1.lossHistory = s.lossHistory ++ [l] := by
      cases b
      · exact ⟨(step_nograd cfg s).2,
          by simp [hs1, step_nograd, forward_nograd]⟩
      · exact ⟨(step cfg s).2, by simp [hs1, step, forward]⟩
    obtain ⟨l, hl⟩ := hl
    obtain ⟨tc, tl, h1, h2, h3, h4⟩ := ih s1
    refine ⟨s.coords :: tc, l :: tl, ?_, ?_, ?_, ?_⟩
    · rw [runSteps, ← hs1, h1, hc]; simp
    · rw [runSteps, ← hs1, h2, hl]; simp
    · simp [h3]
    · simp [h4]

/-- C1: forward accumulates the scaled adjusted gradient into coords.grad,
adding to the previous value when one exists and initializing otherwise;
it never overwrites an existing value. -/
theorem forward_accumulates_scaled_grad (cfg : Config F) (s : State F) :
    (forward cfg s).1.coordsGrad =
      some (match s.coordsGrad with
        | none => (adjusted_grad cfg s).map (fun x => x * cfg.scale)
        | some g0 =>
            List.zipWith (fun a b => a + b) g0
              ((adjusted_grad cfg s).map (fun x => x * cfg.scale))) := by
  cases h : s.coordsGrad <;> simp [forward, adjusted_grad, h]

/-- C2: after K interleaved step/step_nograd invocations from a freshly
constructed state (empty histories) each history holds exactly K entries;
in general each invocation appends exactly one snapshot and one loss at
the end, so the histories grow in call order and are never truncated. -/
theorem histories_grow_one_per_step (cfg : Config F) (ks : List Bool)
    (s : State F) :
    (∃ tc tl, (runSteps cfg ks s).coordsHistory = s.coordsHistory ++ tc ∧
      (runSteps cfg ks s).lossHistory = s.lossHistory ++ tl ∧
      tc.length = ks.length ∧ tl.length = ks.length) ∧
    (∀ s2 : State F,
      (forward cfg s2).1.coordsHistory = s2.coordsHistory ++ [s2.coords] ∧
      (forward cfg s2).1.lossHistory =
        s2.lossHistory ++ [(forward cfg s2).2] ∧
      (forward_nograd cfg s2).1.coordsHistory =
        s2.coordsHistory ++ [s2.coords] ∧
      (forward_nograd cfg s2).1.lossHistory =
        s2.lossHistory ++ [(forward_nograd cfg s2).2]) := by
  refine ⟨runSteps_histories cfg ks s, fun s2 => ?_⟩
  refine ⟨rfl, rfl, rfl, rfl⟩

/-- C3: the per-step image/gradient routine recomputes the gradient fields
from the transformed image exactly when a per-step image pipeline is
configured; with none configured it returns the cached image and cached
gradients unchanged (grad_fn is not consulted), and in both cases the
per-step gradient pipeline is applied to the result. -/
theorem image_gradient_fn_step_cases (cfg : Config F) (t : F → F)
    (s : State F) :
    image_gradient_fn_step { cfg with img_step := some t } s =
      (t s.image, cfg.grad_step ((cfg.grad_fn (t s.image)).reverse)) ∧
    image_gradient_fn_step { cfg with img_step := none } s =
      (s.image, cfg.grad_step s.gradients) ∧
    (∀ gf : F → List F,
      image_gradient_fn_step { cfg with img_step := none, grad_fn := gf } s =
        image_gradient_fn_step { cfg with img_step := none } s) := by
  exact ⟨rfl, rfl, fun gf => rfl⟩

/-- C7: the per-step protocol of forward: one snapshot of the coords is
taken and that same snapshot is used for the gradient interpolation of
every axis, as the coordinate context of the out-of-bounds policy, for
the loss interpolation and as the history record; the policy is applied
before scaling and accumulation; the returned loss is the interpolation
of the per-step image at the snapshot. -/
theorem forward_protocol (cfg : Config F) (s : State F) :
    forward cfg s =
      ({ image := s.image
         gradients := s.gradients
         coords := s.coords
         coordsGrad :=
           some (match s.coordsGrad with
             | none =>
                 (cfg.outofbounds s.coords
                   ((image_gradient_fn_step cfg s).2.map
                     (fun g => cfg.interp g s.coords))).map
                   (fun x => x * cfg.scale)
             | some g0 =>
                 List.zipWith (fun a b => a + b) g0
                   ((cfg.outofbounds s.coords
                     ((image_gradient_fn_step cfg s).2.map
                       (fun g => cfg.interp g s.coords))).map
                     (fun x => x * cfg.scale)))
         coordsHistory := s.coordsHistory ++ [s.coords]
         lossHistory := s.lossHistory ++
           [cfg.interp (image_gradient_fn_step cfg s).1 s.coords] },
       cfg.interp (image_gradient_fn_step cfg s).1 s.coords) := by
  cases h : s.coordsGrad <;> simp [forward, h]

/-- C5: forward_nograd leaves coords, coords.grad, the cached image and
the cached gradients unchanged, appends exactly one snapshot and one loss,
returns the interpolated per-step image value at the current coords, and
its result is independent of the out-of-bounds policy and the scale
factor. -/
theorem forward_nograd_frame (cfg : Config F) (s : State F) :
    (forward_nograd cfg s).1.coords = s.coords ∧
    (forward_nograd cfg s).1.coordsGrad = s.coordsGrad ∧
    (forward_nograd cfg s).1.image = s.image ∧
    (forward_nograd cfg s).1.gradients = s.gradients ∧
    (forward_nograd cfg s).1.coordsHistory =
      s.coordsHistory ++ [s.coords] ∧
    (forward_nograd cfg s).1.lossHistory =
      s.lossHistory ++ [(forward_nograd cfg s).2] ∧
    (forward_nograd cfg s).2 =
      cfg.interp (image_gradient_fn_step cfg s).1 s.coords ∧
    (∀ ob sc, forward_nograd
        { cfg with outofbounds := ob, scale := sc } s =
      forward_nograd cfg s) := by
  exact ⟨rfl, rfl, rfl, rfl, rfl, rfl, rfl, fun ob sc => rfl⟩

/-- C4 counterexample: on an axis of size 4 the normalized coordinate +1
is sent by rel2abs to index 4, not to the last index 3, and the last
index 3 is sent by the constructor conversion to 1/2, not to +1. -/
theorem rel2abs_one_not_last_index :
    rel2abs 1 4 = 4 ∧ rel2abs 1 4 ≠ 3 ∧
    pix2norm 3 4 = 1 / 2 ∧ pix2norm 3 4 ≠ 1 := by
  refine ⟨by norm_num [rel2abs], by norm_num [rel2abs],
    by norm_num [pix2norm], by norm_num [pix2norm]⟩

/-- C4 amended: for every axis of nonzero size s the two conversions are
mutually inverse; pixel index 0 maps to -1 and normalized -1 maps back to
index 0; but normalized +1 maps to s (one past the last index s - 1), and
a pixel index p lands at (p / s) * 2 - 1, so the last index s - 1 lands
at (s - 2) / s, strictly inside [-1, 1), not at +1. -/
theorem coordinate_conventions_amended (p c s : ℚ) (hs : s ≠ 0) :
    rel2abs (pix2norm p s) s = p ∧
    pix2norm (rel2abs c s) s = c ∧
    pix2norm 0 s = -1 ∧
    rel2abs (-1) s = 0 ∧
    rel2abs 1 s = s ∧
    pix2norm (s - 1) s = (s - 2) / s := by
  refine ⟨?_, ?_, ?_, ?_, ?_, ?_⟩
  · unfold rel2abs pix2norm; field_simp; ring
  · unfold rel2abs pix2norm; field_simp; ring
  · unfold pix2norm; simp
  · unfold rel2abs; ring
  · unfold rel2abs; ring
  · unfold pix2norm; field_simp; ring

/-- C4 amended witness at p = 3, c = 1/2, s = 4. -/
theorem coordinate_conventions_amended_witness :
    rel2abs (pix2norm 3 4) 4 = 3 ∧
    pix2norm (rel2abs (1 / 2) 4) 4 = 1 / 2 ∧
    pix2norm 0 4 = -1 ∧
    rel2abs (-1) 4 = 0 ∧
    rel2abs 1 4 = 4 ∧
    pix2norm (4 - 1) 4 = (4 - 2) / 4 :=
  coordinate_conventions_amended 3 (1 / 2) 4 (by norm_num)

/-- C9: the actual default argument of outofbounds_fn is the hard policy
while the docstring documents the soft policy; the two defaults differ. -/
theorem outofbounds_default_mismatch :
    outofbounds_fn_default = OOBPolicy.hard ∧
    outofbounds_fn_documented_default = OOBPolicy.soft ∧
    outofbounds_fn_default ≠ outofbounds_fn_documented_default := by
  refine ⟨rfl, rfl, by decide⟩

/-- C10: the constructor decides between pixel and normalized coordinates
solely by the first element: when it is an int, every element (whatever
its type) is converted with pix2norm against the shape; when it is a
float, the whole sequence is used unchanged even if later elements are
ints. -/
theorem process_coords_first_element_dispatch (shape : List ℚ) :
    (∀ (n : ℤ) (rest : List PyNum),
      process_coords (.int n :: rest) shape =
        ((PyNum.int n :: rest).zip shape).map
          (fun p => pix2norm p.1.val p.2)) ∧
    (∀ (q : ℚ) (rest : List PyNum),
      process_coords (.float q :: rest) shape =
        (PyNum.float q :: rest).map PyNum.val) := by
  exact ⟨fun n rest => rfl, fun q rest => rfl⟩

/-- Multiplying by a doubled scale is doubling the scaled vector. -/
theorem map_mul_double_scale (l : List ℚ) (c : ℚ) :
    l.map (fun x => x * (2 * c)) =
      (l.map (fun x => x * c)).map (fun x => 2 * x) := by
  induction l with
  | nil => rfl
  | cons a l ih =>
    simp only [List.map_cons, ih]
    have ha : a * (2 * c) = 2 * (a * c) := by ring
    rw [ha]

/-- Accumulating a doubly scaled vector onto a doubled accumulator is
doubling the accumulation of the singly scaled vector. -/
theorem zipWith_add_double (g0 : List ℚ) (l : List ℚ) (c : ℚ) :
    List.zipWith (fun a b => a + b) (g0.map (fun x => 2 * x))
        (l.map (fun x => x * (2 * c))) =
      (List.zipWith (fun a b => a + b) g0
        (l.map (fun x => x * c))).map (fun x => 2 * x) := by
  induction g0 generalizing l with
  | nil => simp
  | cons a g0 ih =>
    cases l with
    | nil => simp
    | cons b l =>
      simp only [List.map_cons, List.zipWith_cons_cons, ih]
      have hab : 2 * a + b * (2 * c) = 2 * (a + b * c) := by ring
      rw [hab]

/-- The accumulator written by forward from an unset accumulator. -/
theorem forward_coordsGrad_none (cfg : Config F) (s : State F)
    (h : s.coordsGrad = none) :
    (forward cfg s).1.coordsGrad =
      some ((adjusted_grad cfg s).map (fun x => x * cfg.scale)) := by
  simp [forward, adjusted_grad, h]

/-- The accumulator written by forward from a set accumulator. -/
theorem forward_coordsGrad_some (cfg : Config F) (s : State F)
    (g0 : List ℚ) (h : s.coordsGrad = some g0) :
    (forward cfg s).1.coordsGrad =
      some (List.zipWith (fun a b => a + b) g0
        ((adjusted_grad cfg s).map (fun x => x * cfg.scale))) := by
  simp [forward, adjusted_grad, h]

/-- The adjusted gradient vector does not depend on the scale factor, the
accumulator or the histories: it is determined by the other pluggable
functions together with the cached image, the cached gradients and the
coords. -/
theorem adjusted_grad_scale_irrel (cfg : Config F) (k k' : ℚ)
    (s t : State F) (h1 : t.image = s.image) (h2 : t.gradients = s.gradients)
    (h3 : t.coords = s.coords) :
    adjusted_grad { cfg with scale := k } t =
      adjusted_grad { cfg with scale := k' } s := by
  cases hcase : cfg.img_step with
  | none =>
    simp [adjusted_grad, image_gradient_fn_step, hcase, h1, h2, h3]
  | some t0 =>
    simp [adjusted_grad, image_gradient_fn_step, hcase, h1, h3]

/-- Any forward run at scale 2c from a state whose accumulator is the
doubled accumulator of a second state agreeing on image, gradients and
coords ends with the doubled accumulator of the run at scale c. -/
theorem runForwardAt_grad_double (cfg : Config F) (c : ℚ)
    (cs : List Coords) :
    ∀ s1 s2 : State F, s2.image = s1.image → s2.gradients = s1.gradients →
      s2.coordsGrad = Option.map (List.map (fun x => 2 * x)) s1.coordsGrad →
      (runForwardAt { cfg with scale := 2 * c } cs s2).coordsGrad =
        Option.map (List.map (fun x => 2 * x))
          ((runForwardAt { cfg with scale := c } cs s1).coordsGrad) := by
  induction cs with
  | nil => intro s1 s2 h1 h2 h3; exact h3
  | cons c0 cs ih =>
    intro s1 s2 h1 h2 h3
    rw [runForwardAt, runForwardAt]
    apply ih
    · exact h1
    · exact h2
    · have hadj : adjusted_grad { cfg with scale := 2 * c }
          (setCoords s2 c0) =
          adjusted_grad { cfg with scale := c } (setCoords s1 c0) :=
        adjusted_grad_scale_irrel cfg (2 * c) c (setCoords s1 c0)
          (setCoords s2 c0) h1 h2 rfl
      cases hg : s1.coordsGrad with
      | none =>
        have hg2 : (setCoords s2 c0).coordsGrad = none := by
          show s2.coordsGrad = none
          rw [h3, hg, Option.map_none']
        have hg1 : (setCoords s1 c0).coordsGrad = none := hg
        rw [forward_coordsGrad_none _ _ hg2,
          forward_coordsGrad_none _ _ hg1, hadj, Option.map_some']
        show some (List.map (fun x => x * (2 * c)) _) =
          some (List.map (fun x => 2 * x) (List.map (fun x => x * c) _))
        rw [map_mul_double_scale]
      | some g0 =>
        have hg2 : (setCoords s2 c0).coordsGrad =
            some (g0.map (fun x => 2 * x)) := by
          show s2.coordsGrad = some (g0.map (fun x => 2 * x))
          rw [h3, hg, Option.map_some']
        have hg1 : (setCoords s1 c0).coordsGrad = some g0 := hg
        rw [forward_coordsGrad_some _ _ _ hg2,
          forward_coordsGrad_some _ _ _ hg1, hadj, Option.map_some']
        show some (List.zipWith (fun a b => a + b)
            (g0.map (fun x => 2 * x))
            (List.map (fun x => x * (2 * c)) _)) =
          some (List.map (fun x => 2 * x)
            (List.zipWith (fun a b => a + b) g0
              (List.map (fun x => x * c) _)))
        rw [zipWith_add_double]

/-- C6: for the same image, gradient fields, position snapshots and
out-of-bounds adjustments, a run of forward steps begun with an unset
gradient accumulator at scale 2c accumulates exactly twice the gradient
of the same run at scale c. -/
theorem scale_linearity (cfg : Config F) (c : ℚ) (cs : List Coords)
    (s : State F) :
    (runForwardAt { cfg with scale := 2 * c } cs
        { s with coordsGrad := none }).coordsGrad =
      Option.map (List.map (fun x => 2 * x))
        ((runForwardAt { cfg with scale := c } cs
          { s with coordsGrad := none }).coordsGrad) :=
  runForwardAt_grad_double cfg c cs { s with coordsGrad := none }
    { s with coordsGrad := none } rfl rfl rfl

/-- C8 counterexample: with a grad_init that shifts the gradients,
constructing with img_step as the empty sequence and constructing with
img_step as None accumulate different gradients on the very first step:
the empty sequence makes the stored per-step image pipeline non-None, so
the gradients are recomputed from grad_fn each step, dropping the
grad_init adjustment that the cached gradients carry. -/
theorem empty_img_step_differs_from_none :
    (forward (mkDescent exampleArgs exampleHooksEmpty).1
        (mkDescent exampleArgs exampleHooksEmpty).2).1.coordsGrad ≠
      (forward (mkDescent exampleArgs exampleHooksNone).1
        (mkDescent exampleArgs exampleHooksNone).2).1.coordsGrad := by
  have h1 : (forward (mkDescent exampleArgs exampleHooksEmpty).1
      (mkDescent exampleArgs exampleHooksEmpty).2).1.coordsGrad =
      some [5 * 1] := rfl
  have h2 : (forward (mkDescent exampleArgs exampleHooksNone).1
      (mkDescent exampleArgs exampleHooksNone).2).1.coordsGrad =
      some [(5 + 1) * 1] := rfl
  rw [h1, h2]
  norm_num

/-- C8 amended: for img_init, grad_init and grad_step, passing the empty
sequence is bit-for-bit identical to passing None (the unconfigured
default): the constructed configuration and state coincide. For img_step,
None matches the unconfigured default (the stored pipeline is None), but
the empty sequence stores a composed identity pipeline instead of None,
which switches forward into its per-step recomputation branch. -/
theorem hooks_none_empty_equivalence (a : InitArgs F) (h : Hooks F) :
    mkDescent a { h with img_init := some [] } =
      mkDescent a { h with img_init := none } ∧
    mkDescent a { h with grad_init := some [] } =
      mkDescent a { h with grad_init := none } ∧
    mkDescent a { h with grad_step := some [] } =
      mkDescent a { h with grad_step := none } ∧
    (mkDescent a { h with img_step := none }).1.img_step = none ∧
    (∀ fs, (mkDescent a { h with img_step := some fs }).1.img_step =
      some (Compose (some fs))) ∧
    (mkDescent a { h with img_step := some [] }).1.img_step ≠ none := by
  refine ⟨rfl, rfl, rfl, rfl, fun fs => rfl, ?_⟩
  intro hcontra
  simp [mkDescent] at hcontra

end ImageDescent
